import Mathlib

/-!
Verification of the syllabification, weight-classification and
pattern-detection core of `sanskrit_metre_app.py`.

Syllables and phoneme streams are modelled as `List Char`; the Python
regular expressions are translated into explicit scanning functions with
the same greedy, left-to-right semantics.
-/

namespace SanskritMetre

/-- The vowel character class of `split_syllables`
(`aeiouāīūṛṝeoau`, duplicates removed). -/
def vowelChars : List Char := ['a', 'e', 'i', 'o', 'u', 'ā', 'ī', 'ū', 'ṛ', 'ṝ']

def isVowel (c : Char) : Bool := decide (c ∈ vowelChars)

/-- Anusvāra or visarga, the `(?:ṃ|ḥ)?` alternatives. -/
def isMarker (c : Char) : Bool := c = 'ṃ' || c = 'ḥ'

/-- The coda consonant class `[kgṅcjñṭḍṇtdnpbmyrlvśṣsh]` of `split_syllables`. -/
def codaChars : List Char :=
  ['k', 'g', 'ṅ', 'c', 'j', 'ñ', 'ṭ', 'ḍ', 'ṇ', 't', 'd', 'n', 'p', 'b', 'm',
   'y', 'r', 'l', 'v', 'ś', 'ṣ', 's', 'h']

def isCodaCons (c : Char) : Bool := decide (c ∈ codaChars)

/-- The optional marker step `(?:ṃ|ḥ)?`: consume one marker character if present.
Returns the consumed span and the rest. -/
def takeMarker : List Char → List Char × List Char
  | [] => ([], [])
  | c :: t => if isMarker c then ([c], t) else ([], c :: t)

/-- The optional coda step `(?:[kgṅcjñṭḍṇtdnpbmyrlvśṣsh](?!h))?`: consume one
coda consonant provided the next character is not `h`. -/
def takeCoda : List Char → List Char × List Char
  | [] => ([], [])
  | c :: t =>
    if isCodaCons c && !(decide (t.head? = some 'h')) then ([c], t) else ([], c :: t)

theorem takeMarker_append (l : List Char) : (takeMarker l).1 ++ (takeMarker l).2 = l := by
  cases l with
  | nil => rfl
  | cons c t => simp only [takeMarker]; split <;> simp

theorem takeCoda_append (l : List Char) : (takeCoda l).1 ++ (takeCoda l).2 = l := by
  cases l with
  | nil => rfl
  | cons c t => simp only [takeCoda]; split <;> simp

theorem takeMarker_length (l : List Char) : (takeMarker l).2.length ≤ l.length := by
  cases l with
  | nil => simp [takeMarker]
  | cons c t => simp only [takeMarker]; split <;> simp

theorem takeCoda_length (l : List Char) : (takeCoda l).2.length ≤ l.length := by
  cases l with
  | nil => simp [takeCoda]
  | cons c t => simp only [takeCoda]; split <;> simp

theorem dropWhile_nonVowel_head (l : List Char) (h : l.any isVowel = true) :
    ∃ c t, l.dropWhile (fun c => !isVowel c) = c :: t ∧ isVowel c = true := by
  induction l with
  | nil => simp at h
  | cons a t ih =>
    by_cases ha : isVowel a = true
    · exact ⟨a, t, by simp [List.dropWhile_cons, ha], ha⟩
    · have ht : t.any isVowel = true := by
        simp only [List.any_cons, Bool.or_eq_true] at h
        rcases h with h | h
        · exact absurd h ha
        · exact h
      obtain ⟨c, u, hcu, hc⟩ := ih ht
      exact ⟨c, u, by simp [List.dropWhile_cons, ha, hcu], hc⟩

theorem findall_step_length (l : List Char) (h : l.any isVowel = true) :
    (takeCoda (takeMarker
      ((l.dropWhile (fun c => !isVowel c)).dropWhile isVowel)).2).2.length < l.length := by
  obtain ⟨c, t, hct, hc⟩ := dropWhile_nonVowel_head l h
  have h1 : (takeCoda (takeMarker
      ((l.dropWhile (fun c => !isVowel c)).dropWhile isVowel)).2).2.length
      ≤ ((l.dropWhile (fun c => !isVowel c)).dropWhile isVowel).length :=
    le_trans (takeCoda_length _) (takeMarker_length _)
  have h2 : ((l.dropWhile (fun c => !isVowel c)).dropWhile isVowel).length <
      (l.dropWhile (fun c => !isVowel c)).length := by
    rw [hct, List.dropWhile_cons]
    simp only [hc, if_pos]
    have hle : (t.dropWhile isVowel).length ≤ t.length :=
      (List.dropWhile_sublist isVowel).length_le
    simp only [List.length_cons]
    omega
  have h3 : (l.dropWhile (fun c => !isVowel c)).length ≤ l.length :=
    (List.dropWhile_sublist (fun c => !isVowel c)).length_le
  omega

/-- One `findall` match of the pattern
`([^V]*[V]+(?:ṃ|ḥ)?(?:[K](?!h))?)` at the current position decomposes as
onset (maximal non-vowel run), nucleus (maximal vowel run), optional marker,
optional guarded coda consonant.  `findall_syllables` iterates this; a
position whose remaining input holds no vowel never matches again and the
remaining characters are skipped, exactly as `re.findall` does. -/
def findall_syllables (l : List Char) : List (List Char) :=
  if h : l.any isVowel then
    let onset := l.takeWhile (fun c => !isVowel c)
    let r1 := l.dropWhile (fun c => !isVowel c)
    let nuc := r1.takeWhile isVowel
    let r2 := r1.dropWhile isVowel
    let m := takeMarker r2
    let k := takeCoda m.2
    (onset ++ nuc ++ m.1 ++ k.1) :: findall_syllables k.2
  else []
termination_by l.length
decreasing_by
  exact findall_step_length l h

/-- `split_syllables` first deletes all whitespace (`re.sub(r"\s+", "", text)`)
and then runs the `findall` scan. -/
def split_syllables (text : List Char) : List (List Char) :=
  findall_syllables (text.filter (fun c => !c.isWhitespace))

/-- Structurally recursive variant of `findall_syllables`, driven by fuel;
it agrees with `findall_syllables` whenever the fuel bounds the input length
and lets closed instances of the scan be computed by kernel reduction. -/
def findall_fuel : Nat → List Char → List (List Char)
  | 0, _ => []
  | n + 1, l =>
    if l.any isVowel then
      (l.takeWhile (fun c => !isVowel c)
        ++ (l.dropWhile (fun c => !isVowel c)).takeWhile isVowel
        ++ (takeMarker ((l.dropWhile (fun c => !isVowel c)).dropWhile isVowel)).1
        ++ (takeCoda (takeMarker
              ((l.dropWhile (fun c => !isVowel c)).dropWhile isVowel)).2).1)
      :: findall_fuel n (takeCoda (takeMarker
              ((l.dropWhile (fun c => !isVowel c)).dropWhile isVowel)).2).2
    else []

abbrev Syllable := List Char

abbrev Verse := List Syllable

/-- The character class of the first `re.search` in `is_guru`, written
`[āīūṛṝeoau]` in the source: it contains the long vowels together with the
literal characters `e`, `o`, `a`, `u`. -/
def guruVowelChars : List Char := ['ā', 'ī', 'ū', 'ṛ', 'ṝ', 'e', 'o', 'a', 'u']

/-- The class `[aeiou]` used by the third `re.search` in `is_guru`. -/
def shortVowelChars : List Char := ['a', 'e', 'i', 'o', 'u']

/-- `re.search(r"[aeiou][^aeiou]{2,}", syl)`: some position holds a character
of `[aeiou]` immediately followed by at least two characters outside it. -/
def guruCluster : List Char → Bool
  | a :: b :: c :: rest =>
    (decide (a ∈ shortVowelChars) && !decide (b ∈ shortVowelChars)
      && !decide (c ∈ shortVowelChars))
    || guruCluster (b :: c :: rest)
  | _ => false

/-- The weight classifier `is_guru`. -/
def is_guru (syl : Syllable) : Bool :=
  if syl.isEmpty then false
  else
    syl.any (fun c => decide (c ∈ guruVowelChars))
    || syl.any isMarker
    || guruCluster syl

/-- `get_padas`: the four slices `sylls[i*8:(i+1)*8]`, keeping only those of
length exactly 8. -/
def get_padas (s : Verse) : List Verse :=
  (List.range 4).filterMap (fun i =>
    let p := (s.drop (i * 8)).take 8
    if p.length = 8 then some p else none)

/-- `classify_anushtubh`: returns the name on the Pathyā condition over the
third and fourth pāda, the empty string otherwise. -/
def classify_anushtubh (s : Verse) : String :=
  let pads := get_padas s
  if pads.length = 4 then
    let p3 := pads.getD 2 []
    let p4 := pads.getD 3 []
    if (!is_guru (p3.getD 4 [])) && is_guru (p3.getD 5 [])
        && is_guru (p4.getD 4 []) && is_guru (p4.getD 5 []) then
      "Pathyā-anuṣṭubh"
    else ""
  else ""

/-- `get_initial`: `re.match(r"[^V]+", syl)`, the maximal non-vowel prefix
(empty when the syllable starts with a vowel). -/
def get_initial (syl : Syllable) : List Char :=
  syl.takeWhile (fun c => !isVowel c)

/-- `get_final`: `re.search(r"[^V]+$", syl)`, the maximal non-vowel suffix. -/
def get_final (syl : Syllable) : List Char :=
  (syl.reverse.takeWhile (fun c => !isVowel c)).reverse

/-- `len(set(vals)) == 1`: the list is non-empty and all its values coincide. -/
def uniqueVal {α : Type} [BEq α] : List α → Bool
  | [] => false
  | v :: rest => rest.all (fun x => x == v)

/-- `detect_lata`: some pāda is non-empty (Python truthiness of `any`) and all
syllables OF THE FIRST pāda share the initial of its first syllable. -/
def detect_lata (s : Verse) : Bool :=
  let pads := get_padas s
  pads.any (fun p => !p.isEmpty)
    && (pads.getD 0 []).all
        (fun syl => get_initial syl == get_initial ((pads.getD 0 []).getD 0 []))

/-- `detect_antya_pada`: some pāda on which the `get_final` values form a
one-element set. -/
def detect_antya_pada (s : Verse) : Bool :=
  (get_padas s).any (fun p => uniqueVal (p.map get_final))

/-- Python `p[-1]` on the (always length-8) pāda lists. -/
def lastSyl (p : Verse) : Syllable := p.getD (p.length - 1) []

def padaanta_yamaka (s : Verse) : Bool :=
  let pads := get_padas s
  decide (pads.length = 4) && uniqueVal (pads.map lastSyl)

def padadi_yamaka (s : Verse) : Bool :=
  let pads := get_padas s
  decide (pads.length = 4) && uniqueVal (pads.map (fun p => p.getD 0 []))

/-- `samudga_yamaka`: `s[:16] == s[16:32]`, with no block-size guard. -/
def samudga_yamaka (s : Verse) : Bool :=
  s.take 16 == (s.drop 16).take 16

def vikranta_yamaka (s : Verse) : Bool :=
  let pads := get_padas s
  decide (pads.length = 4) && pads.getD 0 [] == pads.getD 2 []
    && pads.getD 1 [] == pads.getD 3 []

def cakravala_yamaka (s : Verse) : Bool :=
  let pads := get_padas s
  decide (pads.length = 4)
    && (List.range 3).all
        (fun i => lastSyl (pads.getD i []) == (pads.getD (i + 1) []).getD 0 [])

def sandasta_yamaka (s : Verse) : Bool :=
  let pads := get_padas s
  decide (pads.length = 4) && uniqueVal (pads.map (fun p => p.take 2))

def amredita_yamaka (s : Verse) : Bool :=
  let pads := get_padas s
  decide (pads.length = 4) && uniqueVal (pads.map (fun p => p.drop (p.length - 2)))

def caturvyavasita_yamaka (s : Verse) : Bool :=
  let pads := get_padas s
  decide (pads.length = 4) && pads.all (fun p => p == pads.getD 0 [])

/-! ### Character-class facts -/

theorem mem_all_true {p : Char → Bool} {cs : List Char} (hall : cs.all p = true)
    {c : Char} (hc : c ∈ cs) : p c = true := by
  rw [List.all_eq_true] at hall
  exact hall c hc

theorem isCodaCons_not_vowel {c : Char} (h : isCodaCons c = true) : isVowel c = false := by
  have hc : c ∈ codaChars := of_decide_eq_true h
  have hall : codaChars.all (fun x => !isVowel x) = true := by decide
  have := mem_all_true hall hc
  simpa using this

theorem isCodaCons_not_marker {c : Char} (h : isCodaCons c = true) : isMarker c = false := by
  have hc : c ∈ codaChars := of_decide_eq_true h
  have hall : codaChars.all (fun x => !isMarker x) = true := by decide
  have := mem_all_true hall hc
  simpa using this

theorem isCodaCons_not_ws {c : Char} (h : isCodaCons c = true) : c.isWhitespace = false := by
  have hc : c ∈ codaChars := of_decide_eq_true h
  have hall : codaChars.all (fun x => !x.isWhitespace) = true := by decide
  have := mem_all_true hall hc
  simpa using this

theorem isVowel_ne_h {c : Char} (h : isVowel c = true) : c ≠ 'h' := by
  have hc : c ∈ vowelChars := of_decide_eq_true h
  have hall : vowelChars.all (fun x => !(x = 'h' : Bool)) = true := by decide
  have := mem_all_true hall hc
  simp only [Bool.not_eq_true] at this
  intro hcontra
  rw [hcontra] at this
  simp at this

theorem isVowel_not_ws {c : Char} (h : isVowel c = true) : c.isWhitespace = false := by
  have hc : c ∈ vowelChars := of_decide_eq_true h
  have hall : vowelChars.all (fun x => !x.isWhitespace) = true := by decide
  have := mem_all_true hall hc
  simpa using this

/-! ### Unfolding the syllable scan -/

theorem findall_nil {l : List Char} (h : l.any isVowel = false) :
    findall_syllables l = [] := by
  rw [findall_syllables]
  simp [h]

theorem findall_cons {l : List Char} (h : l.any isVowel = true) :
    findall_syllables l =
      (l.takeWhile (fun c => !isVowel c)
        ++ (l.dropWhile (fun c => !isVowel c)).takeWhile isVowel
        ++ (takeMarker ((l.dropWhile (fun c => !isVowel c)).dropWhile isVowel)).1
        ++ (takeCoda (takeMarker
              ((l.dropWhile (fun c => !isVowel c)).dropWhile isVowel)).2).1)
      :: findall_syllables (takeCoda (takeMarker
              ((l.dropWhile (fun c => !isVowel c)).dropWhile isVowel)).2).2 := by
  rw [findall_syllables]
  simp [h]

theorem findall_eq_fuel :
    ∀ (n : Nat) (l : List Char), l.length ≤ n → findall_syllables l = findall_fuel n l := by
  intro n
  induction n with
  | zero =>
    intro l hl
    have hnil : l = [] := List.length_eq_zero.mp (Nat.le_zero.mp hl)
    subst hnil
    rw [findall_nil (by simp)]
    rfl
  | succ n ih =>
    intro l hl
    cases hv : l.any isVowel with
    | false => rw [findall_nil hv]; simp [findall_fuel, hv]
    | true =>
      rw [findall_cons hv]
      simp only [findall_fuel, hv, if_true]
      congr 1
      apply ih
      have := findall_step_length l hv
      omega

theorem split_syllables_eval (text : List Char) :
    split_syllables text =
      findall_fuel text.length (text.filter (fun c => !c.isWhitespace)) := by
  rw [split_syllables]
  exact findall_eq_fuel text.length _ (List.length_filter_le _ _)

theorem findall_flatten_aux :
    ∀ (n : Nat) (l : List Char), l.length ≤ n →
      ∃ t, (findall_syllables l).flatten ++ t = l ∧ t.any isVowel = false := by
  intro n
  induction n with
  | zero =>
    intro l hl
    have : l = [] := List.length_eq_zero.mp (Nat.le_zero.mp hl)
    subst this
    exact ⟨[], by simp [findall_nil], by simp⟩
  | succ n ih =>
    intro l hl
    cases hv : l.any isVowel with
    | false => exact ⟨l, by simp [findall_nil hv], hv⟩
    | true =>
      have hstep := findall_step_length l hv
      obtain ⟨t, ht1, ht2⟩ :=
        ih (takeCoda (takeMarker
              ((l.dropWhile (fun c => !isVowel c)).dropWhile isVowel)).2).2
          (by omega)
      refine ⟨t, ?_, ht2⟩
      rw [findall_cons hv]
      simp only [List.flatten_cons, List.append_assoc]
      rw [ht1]
      rw [takeCoda_append, takeMarker_append, List.takeWhile_append_dropWhile,
        List.takeWhile_append_dropWhile]

/-- The scan covers an initial segment of the stream; the remainder it skips
holds no vowel. -/
theorem findall_flatten (l : List Char) :
    ∃ t, (findall_syllables l).flatten ++ t = l ∧ t.any isVowel = false :=
  findall_flatten_aux l.length l le_rfl

theorem filter_ws_eq {l : List Char} (h : ∀ x ∈ l, x.isWhitespace = false) :
    l.filter (fun c => !c.isWhitespace) = l := by
  apply List.filter_eq_self.mpr
  intro x hx
  simp [h x hx]

theorem findall_single_vowel {u : Char} (hu : isVowel u = true) :
    findall_syllables [u] = [[u]] := by
  rw [findall_cons (by simp [hu])]
  simp [hu, takeMarker, takeCoda, findall_nil]

/-- Claim C2, corrected. A lone consonant of the coda class standing between
two vowels is taken into the coda of the preceding syllable, not into the
onset of the following one, because the optional coda group of the regular
expression is greedy: a stream v c u splits as [v c, u]. -/
theorem split_single_intervocalic (v c u : Char) (hv : isVowel v = true)
    (hu : isVowel u = true) (hc : isCodaCons c = true) :
    split_syllables [v, c, u] = [[v, c], [u]] := by
  have hcv : isVowel c = false := isCodaCons_not_vowel hc
  have hcm : isMarker c = false := isCodaCons_not_marker hc
  have hun : u ≠ 'h' := isVowel_ne_h hu
  have hfil : List.filter (fun x => !x.isWhitespace) [v, c, u] = [v, c, u] := by
    apply filter_ws_eq
    intro x hx
    simp only [List.mem_cons, List.not_mem_nil, or_false] at hx
    rcases hx with rfl | rfl | rfl
    · exact isVowel_not_ws hv
    · exact isCodaCons_not_ws hc
    · exact isVowel_not_ws hu
  rw [split_syllables, hfil, findall_cons (by simp [hv])]
  simp [List.takeWhile_cons, List.dropWhile_cons, hv, hcv, hcm, hc, hun,
    takeMarker, takeCoda]
  exact findall_single_vowel hu

/-- Intervocalic pair whose second consonant is not `h`: the first consonant
is taken as coda of the current syllable, the second opens the next. -/
theorem split_cluster_pair_not_h (v c1 c2 u : Char) (hv : isVowel v = true)
    (hu : isVowel u = true) (h1 : isCodaCons c1 = true) (h2 : isCodaCons c2 = true)
    (hne : c2 ≠ 'h') :
    split_syllables [v, c1, c2, u] = [[v, c1], [c2, u]] := by
  have h1v : isVowel c1 = false := isCodaCons_not_vowel h1
  have h2v : isVowel c2 = false := isCodaCons_not_vowel h2
  have h1m : isMarker c1 = false := isCodaCons_not_marker h1
  have hfil : List.filter (fun x => !x.isWhitespace) [v, c1, c2, u] = [v, c1, c2, u] := by
    apply filter_ws_eq
    intro x hx
    simp only [List.mem_cons, List.not_mem_nil, or_false] at hx
    rcases hx with rfl | rfl | rfl | rfl
    · exact isVowel_not_ws hv
    · exact isCodaCons_not_ws h1
    · exact isCodaCons_not_ws h2
    · exact isVowel_not_ws hu
  rw [split_syllables, hfil, findall_cons (by simp [hv])]
  simp [List.takeWhile_cons, List.dropWhile_cons, hv, h1v, h2v, h1m, h1, hne,
    takeMarker, takeCoda]
  rw [findall_cons (by simp [hu])]
  simp [List.takeWhile_cons, List.dropWhile_cons, h2v, hu, takeMarker, takeCoda,
    findall_nil]

/-- Intervocalic pair whose second consonant is `h`: the lookahead `(?!h)`
blocks the optional coda, the first syllable stays open and the whole cluster
moves to the onset of the following syllable. -/
theorem split_cluster_pair_h (v c1 u : Char) (hv : isVowel v = true)
    (hu : isVowel u = true) (h1 : isCodaCons c1 = true) :
    split_syllables [v, c1, 'h', u] = [[v], [c1, 'h', u]] := by
  have h1v : isVowel c1 = false := isCodaCons_not_vowel h1
  have h1m : isMarker c1 = false := isCodaCons_not_marker h1
  have hhv : isVowel 'h' = false := by decide
  have hfil : List.filter (fun x => !x.isWhitespace) [v, c1, 'h', u] = [v, c1, 'h', u] := by
    apply filter_ws_eq
    intro x hx
    simp only [List.mem_cons, List.not_mem_nil, or_false] at hx
    rcases hx with rfl | rfl | rfl | rfl
    · exact isVowel_not_ws hv
    · exact isCodaCons_not_ws h1
    · decide
    · exact isVowel_not_ws hu
  rw [split_syllables, hfil, findall_cons (by simp [hv])]
  simp [List.takeWhile_cons, List.dropWhile_cons, hv, h1v, hhv, h1m, h1,
    takeMarker, takeCoda]
  rw [findall_cons (by simp [hu])]
  simp [List.takeWhile_cons, List.dropWhile_cons, h1v, hhv, hu,
    takeMarker, takeCoda, findall_nil]

/-- Claim C5, corrected. There is no whitelist of inseparable clusters. For an
intervocalic cluster of two coda-class consonants the outcome depends only on
whether the second consonant is `h`: when it is not `h`, the first consonant
closes the current syllable as coda and the second opens the next, so `akṣa`
gives [ak, ṣa] — kṣ, jñ and the like are split like any other pair; when the
second consonant is `h` (an aspirate digraph such as `kh`), the lookahead
blocks the coda, the first syllable stays open and the whole cluster moves to
the onset of the following syllable, so `akha` gives [a, kha]. -/
theorem split_cluster_two (v c1 c2 u : Char) (hv : isVowel v = true)
    (hu : isVowel u = true) (h1 : isCodaCons c1 = true) (h2 : isCodaCons c2 = true) :
    split_syllables [v, c1, c2, u] =
      if c2 = 'h' then [[v], [c1, c2, u]] else [[v, c1], [c2, u]] := by
  by_cases hne : c2 = 'h'
  · subst hne
    rw [if_pos rfl]
    exact split_cluster_pair_h v c1 u hv hu h1
  · rw [if_neg hne]
    exact split_cluster_pair_not_h v c1 c2 u hv hu h1 h2 hne

/-- Claim C6, corrected. Of a vowel-less trailing consonant run, only the
first consonant (when it is of the coda class and not followed by `h`) is
kept, as the coda of the last syllable; the remaining trailing consonants are
discarded by the scan, not appended. -/
theorem split_trailing_cluster (v c : Char) (rest : List Char) (hv : isVowel v = true)
    (hc : isCodaCons c = true) (hrest : rest.any isVowel = false)
    (hh : rest.head? ≠ some 'h') (hw : ∀ x ∈ rest, x.isWhitespace = false) :
    split_syllables (v :: c :: rest) = [[v, c]] := by
  have hcv : isVowel c = false := isCodaCons_not_vowel hc
  have hcm : isMarker c = false := isCodaCons_not_marker hc
  have hfil : List.filter (fun x => !x.isWhitespace) (v :: c :: rest) = v :: c :: rest := by
    apply filter_ws_eq
    intro x hx
    simp only [List.mem_cons] at hx
    rcases hx with rfl | rfl | hx
    · exact isVowel_not_ws hv
    · exact isCodaCons_not_ws hc
    · exact hw x hx
  rw [split_syllables, hfil, findall_cons (by simp [hv])]
  simp [List.takeWhile_cons, List.dropWhile_cons, hv, hcv, hcm, hc, hh,
    takeMarker, takeCoda, findall_nil hrest]

theorem get_padas_of_length {s : Verse} (h : 32 ≤ s.length) :
    get_padas s = [s.take 8, (s.drop 8).take 8, (s.drop 16).take 8, (s.drop 24).take 8] := by
  have e : List.range 4 = [0, 1, 2, 3] := by decide
  rw [get_padas, e]
  have c0 : 8 ≤ s.length := by omega
  have c1 : 8 ≤ s.length - 8 := by omega
  have c2 : 8 ≤ s.length - 16 := by omega
  have c3 : 8 ≤ s.length - 24 := by omega
  simp [List.filterMap_cons, c0, c1, c2, c3]

theorem get_padas_short {s : Verse} (h : s.length < 32) :
    (get_padas s).length ≤ 3 := by
  have e : List.range 4 = [0, 1, 2] ++ [3] := by decide
  rw [get_padas, e, List.filterMap_append]
  have c3 : ¬ (8 ≤ s.length - 24) := by omega
  have h3 : List.filterMap (fun i =>
      let p := (s.drop (i * 8)).take 8
      if p.length = 8 then some p else none) [3] = [] := by
    simp [List.filterMap_cons, c3]
  rw [h3, List.append_nil]
  calc (List.filterMap _ [0, 1, 2]).length ≤ ([0, 1, 2] : List Nat).length :=
        List.length_filterMap_le _ _
    _ = 3 := rfl

theorem getD_drop_take {s : Verse} {a i j : Nat} (hi : i < 8) (hj : j = a + i) :
    ((s.drop a).take 8).getD i [] = s.getD j [] := by
  subst hj
  simp [List.getD_eq_getElem?_getD, List.getElem?_take, hi, List.getElem?_drop]

/-- Claim C7, confirmed. For a syllable sequence of at least 32 syllables,
the verse is classified Pathyā-anuṣṭubh exactly when syllable 21 (the 5th of
the third pāda, index 20) is Light, syllable 22 (the 6th of the third pāda) is
Heavy, and syllables 29 and 30 (the 5th and 6th of the fourth pāda) are both
Heavy, weights as computed by `is_guru`. -/
theorem classify_anushtubh_pathya_iff (s : Verse) (h : 32 ≤ s.length) :
    (classify_anushtubh s = "Pathyā-anuṣṭubh") ↔
      (is_guru (s.getD 20 []) = false ∧ is_guru (s.getD 21 []) = true ∧
       is_guru (s.getD 28 []) = true ∧ is_guru (s.getD 29 []) = true) := by
  have g20 : ((s.drop 16).take 8).getD 4 [] = s.getD 20 [] :=
    getD_drop_take (by omega) (by omega)
  have g21 : ((s.drop 16).take 8).getD 5 [] = s.getD 21 [] :=
    getD_drop_take (by omega) (by omega)
  have g28 : ((s.drop 24).take 8).getD 4 [] = s.getD 28 [] :=
    getD_drop_take (by omega) (by omega)
  have g29 : ((s.drop 24).take 8).getD 5 [] = s.getD 29 [] :=
    getD_drop_take (by omega) (by omega)
  unfold classify_anushtubh
  rw [get_padas_of_length h]
  simp only [List.length_cons, List.length_nil, List.getD_cons_succ, List.getD_cons_zero]
  rw [if_pos trivial]
  simp only [g20, g21, g28, g29]
  have hne : ("" : String) = "Pathyā-anuṣṭubh" ↔ False := by
    constructor
    · intro hx
      exact absurd hx (by decide)
    · intro hx
      exact hx.elim
  cases hA : is_guru (s.getD 20 []) <;> cases hB : is_guru (s.getD 21 []) <;>
    cases hC : is_guru (s.getD 28 []) <;> cases hD : is_guru (s.getD 29 []) <;>
    simp [hA, hB, hC, hD, hne]

theorem get_padas_head {s : Verse} (h8 : 8 ≤ s.length) :
    ∃ rest, get_padas s = s.take 8 :: rest := by
  have e : List.range 4 = 0 :: [1, 2, 3] := by decide
  refine ⟨(([1, 2, 3] : List Nat).filterMap (fun i =>
      let p := (s.drop (i * 8)).take 8
      if p.length = 8 then some p else none)), ?_⟩
  rw [get_padas, e, List.filterMap_cons]
  simp [h8]

theorem forall_take8 {s : Verse} (h8 : 8 ≤ s.length) {P : Syllable → Prop}
    (h : ∀ i, i < 8 → P (s.getD i [])) : ∀ x ∈ s.take 8, P x := by
  intro x hx
  rw [List.mem_iff_getElem] at hx
  obtain ⟨i, hi, hxe⟩ := hx
  have hl : (s.take 8).length = 8 := by simp; omega
  have hi8 : i < 8 := by rw [hl] at hi; exact hi
  have his : i < s.length := by omega
  have hg : (s.take 8)[i] = s[i] := List.getElem_take s
  have hgd : s.getD i [] = s[i] := List.getD_eq_getElem s [] his
  have := h i hi8
  rw [hgd, ← hg, hxe] at this
  exact this

theorem take8_forall {s : Verse} (h8 : 8 ≤ s.length) {P : Syllable → Prop}
    (h : ∀ x ∈ s.take 8, P x) : ∀ i, i < 8 → P (s.getD i []) := by
  intro i hi
  have his : i < s.length := by omega
  have hl : (s.take 8).length = 8 := by simp; omega
  have hit : i < (s.take 8).length := by omega
  have hg : (s.take 8)[i] = s[i] := List.getElem_take s
  have hmem : s[i] ∈ s.take 8 := by
    rw [List.mem_iff_getElem]
    exact ⟨i, hit, hg⟩
  have := h _ hmem
  rwa [List.getD_eq_getElem s [] his]

theorem take8_getD_zero (s : Verse) :
    (s.take 8).getD 0 [] = s.getD 0 [] := by
  have h := @getD_drop_take s 0 0 0 (by omega) (by omega)
  rwa [List.drop_zero] at h

theorem detect_lata_char {s : Verse} (h8 : 8 ≤ s.length) :
    detect_lata s = true ↔
      ∀ i, i < 8 → get_initial (s.getD i []) = get_initial (s.getD 0 []) := by
  obtain ⟨rest, hp⟩ := get_padas_head h8
  have hne : (s.take 8).isEmpty = false := by
    have hl : (s.take 8).length = 8 := by simp; omega
    cases hq : s.take 8 with
    | nil => rw [hq] at hl; simp at hl
    | cons a t => exact List.isEmpty_cons
  unfold detect_lata
  simp only [hp, List.any_cons, List.getD_cons_zero, hne, Bool.not_false,
    Bool.true_or, Bool.true_and, take8_getD_zero s]
  rw [List.all_eq_true]
  constructor
  · intro hall
    apply @take8_forall s h8 (fun x => get_initial x = get_initial (s.getD 0 []))
    intro x hx
    have := hall x hx
    simpa using this
  · intro hfa x hx
    have := @forall_take8 s h8 (fun x => get_initial x = get_initial (s.getD 0 [])) hfa x hx
    simpa using this

theorem detect_antya_pada_of_empty {s : Verse} (h8 : 8 ≤ s.length)
    (hf : ∀ i, i < 8 → get_final (s.getD i []) = []) :
    detect_antya_pada s = true := by
  obtain ⟨rest, hp⟩ := get_padas_head h8
  have hfx : ∀ x ∈ s.take 8, get_final x = [] :=
    @forall_take8 s h8 (fun x => get_final x = []) hf
  unfold detect_antya_pada
  rw [hp, List.any_cons]
  rw [Bool.or_eq_true]
  left
  have hl : (s.take 8).length = 8 := by simp; omega
  cases hq : s.take 8 with
  | nil => rw [hq] at hl; simp at hl
  | cons a t =>
    simp only [List.map_cons, uniqueVal]
    rw [List.all_eq_true]
    intro x hx
    rw [List.mem_map] at hx
    obtain ⟨b, hb, hbx⟩ := hx
    have hxe : x = [] := by
      rw [← hbx]
      exact hfx b (by rw [hq]; exact List.mem_cons_of_mem a hb)
    have hae : get_final a = [] := hfx a (by rw [hq]; exact List.mem_cons_self a t)
    rw [hxe, hae]
    simp

/-- Claim C4, corrected. On a syllable sequence shorter than 32 syllables no
detector returns a distinct not-applicable value: the Pathyā classifier
returns the empty string — the same value it returns on a full verse that is
not Pathyā — and the pāda-based yamaka detectors return the boolean `false`,
while `samudga_yamaka` still compares the two 16-item slices and returns
`true` exactly when the sequence is empty. -/
theorem short_block_boolean_results (s : Verse) (h : s.length < 32) :
    classify_anushtubh s = "" ∧ padaanta_yamaka s = false ∧ padadi_yamaka s = false ∧
    vikranta_yamaka s = false ∧ cakravala_yamaka s = false ∧ sandasta_yamaka s = false ∧
    amredita_yamaka s = false ∧ caturvyavasita_yamaka s = false ∧
    samudga_yamaka s = s.isEmpty := by
  have hlen := get_padas_short h
  have hne : ¬ ((get_padas s).length = 4) := by omega
  refine ⟨?_, ?_, ?_, ?_, ?_, ?_, ?_, ?_, ?_⟩
  · simp [classify_anushtubh, hne]
  · simp [padaanta_yamaka, hne]
  · simp [padadi_yamaka, hne]
  · simp [vikranta_yamaka, hne]
  · simp [cakravala_yamaka, hne]
  · simp [sandasta_yamaka, hne]
  · simp [amredita_yamaka, hne]
  · simp [caturvyavasita_yamaka, hne]
  · cases s with
    | nil => rfl
    | cons a t =>
      simp only [List.length_cons] at h
      simp only [samudga_yamaka, List.isEmpty_cons]
      rw [beq_eq_false_iff_ne]
      intro heq
      have hl := congrArg List.length heq
      simp only [List.length_take, List.length_drop, List.length_cons] at hl
      omega

theorem guruCluster_iff (l : List Char) :
    guruCluster l = true ↔
      ∃ pre a b c post, l = pre ++ a :: b :: c :: post ∧
        a ∈ shortVowelChars ∧ b ∉ shortVowelChars ∧ c ∉ shortVowelChars := by
  induction l with
  | nil =>
    constructor
    · intro hg
      exact absurd hg (by simp [guruCluster])
    · rintro ⟨pre, a, b, c, post, heq, -, -, -⟩
      have hlen := congrArg List.length heq
      simp only [List.length_nil, List.length_append, List.length_cons] at hlen
      omega
  | cons a t ih =>
    cases t with
    | nil =>
      constructor
      · intro hg
        exact absurd hg (by simp [guruCluster])
      · rintro ⟨pre, x, y, z, post, heq, -, -, -⟩
        have hlen := congrArg List.length heq
        simp only [List.length_cons, List.length_nil, List.length_append] at hlen
        omega
    | cons b u =>
      cases u with
      | nil =>
        constructor
        · intro hg
          exact absurd hg (by simp [guruCluster])
        · rintro ⟨pre, x, y, z, post, heq, -, -, -⟩
          have hlen := congrArg List.length heq
          simp only [List.length_cons, List.length_nil, List.length_append] at hlen
          omega
      | cons c v =>
        rw [show guruCluster (a :: b :: c :: v) =
            ((decide (a ∈ shortVowelChars) && !decide (b ∈ shortVowelChars)
              && !decide (c ∈ shortVowelChars)) || guruCluster (b :: c :: v)) from rfl]
        rw [Bool.or_eq_true]
        constructor
        · intro hg
          rcases hg with hp | htail
          · simp only [Bool.and_eq_true, Bool.not_eq_true', decide_eq_true_eq,
              decide_eq_false_iff_not] at hp
            exact ⟨[], a, b, c, v, rfl, hp.1.1, hp.1.2, hp.2⟩
          · obtain ⟨pre, x, y, z, post, heq, hx, hy, hz⟩ := ih.mp htail
            exact ⟨a :: pre, x, y, z, post, by rw [List.cons_append, heq], hx, hy, hz⟩
        · rintro ⟨pre, x, y, z, post, heq, hx, hy, hz⟩
          cases pre with
          | nil =>
            simp only [List.nil_append, List.cons.injEq] at heq
            obtain ⟨rfl, rfl, rfl, rfl⟩ := heq
            left
            simp [hx, hy, hz]
          | cons p pre2 =>
            simp only [List.cons_append, List.cons.injEq] at heq
            right
            exact ih.mpr ⟨pre2, x, y, z, post, heq.2, hx, hy, hz⟩

/-- Claim C1, corrected. The weight classifier returns Heavy exactly when the
syllable is non-empty and either contains one of the characters of the literal
class ā ī ū ṛ ṝ e o a u (which includes the short vowels a, e, o, u), or
contains anusvāra or visarga, or contains a character of the class a e i o u
immediately followed by at least two characters outside that class. Thus the
rule of the claim fails in both directions: an open short-a syllable is Heavy
and a closed short-i syllable with a single coda consonant is Light. -/
theorem is_guru_characterization (syl : Syllable) :
    is_guru syl = true ↔
      syl ≠ [] ∧
        ((∃ c ∈ syl, c ∈ guruVowelChars) ∨ (∃ c ∈ syl, c = 'ṃ' ∨ c = 'ḥ') ∨
         ∃ pre a b c post, syl = pre ++ a :: b :: c :: post ∧
           a ∈ shortVowelChars ∧ b ∉ shortVowelChars ∧ c ∉ shortVowelChars) := by
  unfold is_guru
  cases hs : syl.isEmpty with
  | true =>
    have hnil : syl = [] := by simpa [List.isEmpty_iff] using hs
    subst hnil
    simp
  | false =>
    have hne : syl ≠ [] := by simpa [List.isEmpty_iff] using hs
    simp only [hs, Bool.false_eq_true, if_false, ite_false]
    simp [hne, List.any_eq_true, isMarker, guruCluster_iff, Bool.or_eq_true,
      decide_eq_true_eq]
    exact or_assoc

/-! ### Claim theorems, counterexamples and witnesses -/

/-- Counterexample to claim C1 as stated: the open syllable `ka` (short
nucleus, no marker, empty coda) is classified Heavy, and the closed syllable
`kit` (short nucleus, no marker, one coda consonant) is classified Light —
the reverse of the claimed rule on both inputs. -/
theorem is_guru_misclassifies :
    is_guru ['k', 'a'] = true ∧ is_guru ['k', 'i', 't'] = false := by
  decide

/-- Counterexample to claim C2 as stated: the stream `aka` segments as
[ak, a], precisely the division the claim says never happens, and not as
[a, ka]. -/
theorem split_syllables_aka :
    split_syllables ['a', 'k', 'a'] = [['a', 'k'], ['a']] ∧
      ([['a', 'k'], ['a']] : List (List Char)) ≠ [['a'], ['k', 'a']] := by
  refine ⟨?_, by decide⟩
  rw [split_syllables_eval]
  decide

/-- Counterexample to claim C3 as stated: on the stream `akt` the
concatenation of the produced syllables is `ak`, so the trailing `t` is
dropped and the syllables do not reconstruct the stream. -/
theorem split_syllables_akt_gap :
    (split_syllables ['a', 'k', 't']).flatten ≠ ['a', 'k', 't'] := by
  rw [split_syllables_eval]
  decide

/-- Claim C3, corrected. The produced syllables concatenate to an initial
segment of the whitespace-stripped stream, in order and without overlap; the
remaining characters — dropped when the stream ends in a consonant run that
the optional coda group cannot absorb — contain no vowel. -/
theorem split_syllables_covers_initial_segment (text : List Char) :
    ∃ t, (split_syllables text).flatten ++ t =
        text.filter (fun c => !c.isWhitespace) ∧ t.any isVowel = false := by
  rw [split_syllables]
  exact findall_flatten _

/-- Counterexample to claim C4 as stated: on syllable sequences shorter than
32 the detectors yield plain boolean and string verdicts, not a distinct
not-applicable outcome — `samudga_yamaka` even returns `true` on the empty
sequence and `false` on a 20-syllable one, and the Pathyā classifier returns
the same empty string it uses for a definite negative. -/
theorem samudga_boolean_on_short :
    samudga_yamaka ([] : Verse) = true ∧
      samudga_yamaka (List.replicate 20 (['a'] : Syllable)) = false ∧
      classify_anushtubh (List.replicate 20 (['a'] : Syllable)) = "" := by
  decide

/-- Counterexample to claim C5 as stated: in `akṣa` the cluster `kṣ` is
split between the two syllables, giving [ak, ṣa] rather than keeping the
whole cluster in the first coda. -/
theorem split_syllables_aksa :
    split_syllables ['a', 'k', 'ṣ', 'a'] = [['a', 'k'], ['ṣ', 'a']] ∧
      ([['a', 'k'], ['ṣ', 'a']] : List (List Char)) ≠ [['a', 'k', 'ṣ'], ['a']] := by
  refine ⟨?_, by decide⟩
  rw [split_syllables_eval]
  decide

/-- Counterexample to claim C6 as stated: on the stream `ukt` only `k` is
kept as coda of the final syllable and the trailing `t` disappears, so the
full trailing run is not appended. -/
theorem split_syllables_ukt :
    split_syllables ['u', 'k', 't'] = [['u', 'k']] ∧
      (['u', 'k'] : List Char) ≠ ['u', 'k', 't'] := by
  refine ⟨?_, by decide⟩
  rw [split_syllables_eval]
  decide

/-- Counterexample to claim C8 as stated: a verse whose first pāda is eight
`ka` syllables and whose remaining syllables are `ta` satisfies the detector,
although the ninth syllable has a different onset cluster — the detector
never looks outside the first pāda. -/
theorem detect_lata_ignores_later_padas :
    detect_lata (List.replicate 8 (['k', 'a'] : Syllable)
        ++ List.replicate 8 ['t', 'a']) = true ∧
      get_initial ((List.replicate 8 (['k', 'a'] : Syllable)
        ++ List.replicate 8 ['t', 'a']).getD 8 [])
        ≠ get_initial ((List.replicate 8 (['k', 'a'] : Syllable)
        ++ List.replicate 8 ['t', 'a']).getD 0 []) := by
  decide

/-- Claim C8, corrected. When at least eight syllables are present, the
detector returns true exactly when every syllable of the FIRST pāda shares
the onset cluster of the first syllable; syllables of the other pāda are
never consulted. -/
theorem detect_lata_first_pada (s : Verse) (h8 : 8 ≤ s.length) :
    detect_lata s = true ↔
      ∀ i, i < 8 → get_initial (s.getD i []) = get_initial (s.getD 0 []) :=
  detect_lata_char h8

theorem detect_lata_first_pada_witness :
    detect_lata (List.replicate 8 (['k', 'a'] : Syllable)) = true :=
  (detect_lata_first_pada (List.replicate 8 (['k', 'a'] : Syllable))
    (by decide)).mpr (by decide)

/-- Counterexample to claim C9 as stated: a pāda of eight `ai` syllables has
every onset and every coda empty, yet both detectors report the figure. -/
theorem detectors_accept_empty_clusters :
    detect_lata (List.replicate 8 (['a', 'i'] : Syllable)) = true ∧
      detect_antya_pada (List.replicate 8 (['a', 'i'] : Syllable)) = true ∧
      get_initial (['a', 'i'] : Syllable) = [] ∧
      get_final (['a', 'i'] : Syllable) = [] := by
  decide

/-- Claim C9, corrected. In `detect_lata` and `detect_antya_pada` the empty
cluster satisfies the shared-cluster condition like any other value: when the
first pāda exists and all its onset clusters (resp. coda clusters) are empty,
both detectors return true — neither of these two detectors applies a
non-empty guard. -/
theorem detect_empty_clusters (s : Verse) (h8 : 8 ≤ s.length)
    (hi : ∀ i, i < 8 → get_initial (s.getD i []) = [])
    (hf : ∀ i, i < 8 → get_final (s.getD i []) = []) :
    detect_lata s = true ∧ detect_antya_pada s = true := by
  constructor
  · exact (detect_lata_char h8).mpr (fun i h => by rw [hi i h, hi 0 (by omega)])
  · exact detect_antya_pada_of_empty h8 hf

theorem detect_empty_clusters_witness :
    detect_lata (List.replicate 8 (['a'] : Syllable)) = true ∧
      detect_antya_pada (List.replicate 8 (['a'] : Syllable)) = true :=
  detect_empty_clusters (List.replicate 8 (['a'] : Syllable))
    (by decide) (by decide) (by decide)

/-- Claim C10, confirmed. The empty input splits into the empty syllable
sequence, and on it `samudga_yamaka` returns true, because the two
half-verse slices are both empty and compare equal. -/
theorem samudga_empty_verse :
    split_syllables [] = [] ∧ samudga_yamaka (split_syllables []) = true := by
  rw [split_syllables_eval]
  exact ⟨rfl, rfl⟩

theorem split_single_intervocalic_witness :
    split_syllables ['i', 't', 'u'] = [['i', 't'], ['u']] :=
  split_single_intervocalic 'i' 't' 'u' (by decide) (by decide) (by decide)

theorem split_cluster_two_witness :
    split_syllables ['i', 'k', 'ṣ', 'u'] = [['i', 'k'], ['ṣ', 'u']] ∧
      split_syllables ['i', 'k', 'h', 'u'] = [['i'], ['k', 'h', 'u']] := by
  constructor
  · have h := split_cluster_two 'i' 'k' 'ṣ' 'u' (by decide) (by decide)
      (by decide) (by decide)
    rw [if_neg (by decide)] at h
    exact h
  · have h := split_cluster_two 'i' 'k' 'h' 'u' (by decide) (by decide)
      (by decide) (by decide)
    rw [if_pos rfl] at h
    exact h

theorem split_trailing_cluster_witness :
    split_syllables ['i', 'k', 't'] = [['i', 'k']] :=
  split_trailing_cluster 'i' 'k' ['t'] (by decide) (by decide) (by decide)
    (by decide) (by decide)

theorem classify_anushtubh_pathya_iff_witness :
    classify_anushtubh (List.replicate 20 (['k', 'a'] : Syllable)
        ++ [['k', 'i']] ++ List.replicate 11 ['k', 'a']) = "Pathyā-anuṣṭubh" :=
  (classify_anushtubh_pathya_iff (List.replicate 20 (['k', 'a'] : Syllable)
      ++ [['k', 'i']] ++ List.replicate 11 ['k', 'a'])
    (by decide)).mpr (by decide)

theorem short_block_boolean_results_witness :
    classify_anushtubh (List.replicate 20 (['a'] : Syllable)) = "" ∧
      padaanta_yamaka (List.replicate 20 (['a'] : Syllable)) = false ∧
      padadi_yamaka (List.replicate 20 (['a'] : Syllable)) = false ∧
      vikranta_yamaka (List.replicate 20 (['a'] : Syllable)) = false ∧
      cakravala_yamaka (List.replicate 20 (['a'] : Syllable)) = false ∧
      sandasta_yamaka (List.replicate 20 (['a'] : Syllable)) = false ∧
      amredita_yamaka (List.replicate 20 (['a'] : Syllable)) = false ∧
      caturvyavasita_yamaka (List.replicate 20 (['a'] : Syllable)) = false ∧
      samudga_yamaka (List.replicate 20 (['a'] : Syllable))
        = (List.replicate 20 (['a'] : Syllable)).isEmpty :=
  short_block_boolean_results (List.replicate 20 (['a'] : Syllable)) (by decide)

end SanskritMetre
